import Mathlib

/-!
Shallow embedding of the Black-Scholes pricing and implied-volatility core
(`src/core/black_scholes.cpp`) over the real numbers, together with theorems
settling the specification claims about it.  C++ `double` arithmetic is
modelled by `ℝ`; C++ exceptions (`std::invalid_argument`, `std::runtime_error`)
are modelled by an explicit error type carried in `Except`.
-/

namespace IVCalculator

noncomputable section

open Real MeasureTheory intervalIntegral

/-- Error kinds of the core: `invalidInput` models `std::invalid_argument`
(precondition violation), `nonConvergence` models `std::runtime_error`
(iteration budget exhausted / numerical failure). -/
inductive BSError where
  | invalidInput : BSError
  | nonConvergence : BSError
deriving DecidableEq

/-- Method selector, from `black_scholes.h`. -/
inductive ImpliedVolatilityMethod where
  | NEWTON_RAPHSON : ImpliedVolatilityMethod
  | BISECTION : ImpliedVolatilityMethod
deriving DecidableEq

/-- The Gauss error function, the real-number semantics of `std::erf`. -/
def erf (x : ℝ) : ℝ := 2 / Real.sqrt π * ∫ t in (0:ℝ)..x, Real.exp (-t ^ 2)

/-- Standard normal CDF, from `norm_cdf` (line 10):
`0.5 * (1 + std::erf(x / std::sqrt(2)))`. -/
def norm_cdf (x : ℝ) : ℝ := 0.5 * (1 + erf (x / Real.sqrt 2))

/-- Standard normal PDF, from `norm_pdf` (line 13):
`(1.0 / std::sqrt(2.0 * M_PI)) * std::exp(-0.5 * x * x)`. -/
def norm_pdf (x : ℝ) : ℝ := 1.0 / Real.sqrt (2.0 * π) * Real.exp (-(0.5) * x * x)

/-- The `d1` intermediate of the Black-Scholes formula (lines 23, 40). -/
def bs_d1 (S K T r sigma : ℝ) : ℝ :=
  (Real.log (S / K) + (r + sigma * sigma / 2) * T) / (sigma * Real.sqrt T)

/-- The `d2` intermediate of the Black-Scholes formula (line 24). -/
def bs_d2 (S K T r sigma : ℝ) : ℝ := bs_d1 S K T r sigma - sigma * Real.sqrt T

/-- Value computed by the body of `black_scholes_price` (lines 22-30), i.e. the
closed-form price after validation has passed. -/
def bsPriceVal (is_call : Bool) (S K T r sigma : ℝ) : ℝ :=
  if is_call then
    S * norm_cdf (bs_d1 S K T r sigma) -
      K * Real.exp (-r * T) * norm_cdf (bs_d2 S K T r sigma)
  else
    K * Real.exp (-r * T) * norm_cdf (-bs_d2 S K T r sigma) -
      S * norm_cdf (-bs_d1 S K T r sigma)

/-- `black_scholes_price` (lines 15-31): input validation then the closed form. -/
def black_scholes_price (is_call : Bool) (S K T r sigma : ℝ) : Except BSError ℝ :=
  if S ≤ 0 ∨ K ≤ 0 ∨ T ≤ 0 ∨ sigma < 0 then .error .invalidInput
  else .ok (bsPriceVal is_call S K T r sigma)

/-- Value computed by the body of `black_scholes_vega` (lines 39-45). -/
def bsVegaVal (S K T r sigma : ℝ) : ℝ :=
  S * Real.sqrt T * norm_pdf (bs_d1 S K T r sigma) / 100.0

/-- `black_scholes_vega` (lines 33-46): input validation then the vega formula
(divided by 100, the percentage-point convention). -/
def black_scholes_vega (S K T r sigma : ℝ) : Except BSError ℝ :=
  if S ≤ 0 ∨ K ≤ 0 ∨ T ≤ 0 ∨ sigma ≤ 0 then .error .invalidInput
  else .ok (bsVegaVal S K T r sigma)

/-- The `for` loop of `bisection_implied_volatility` (lines 82-96), with the
remaining iteration count as fuel; running out of fuel is the post-loop
`throw std::runtime_error` (line 98). -/
def bisection_loop (is_call : Bool) (S K T r option_price : ℝ) :
    ℕ → ℝ → ℝ → Except BSError ℝ
  | 0, _, _ => .error .nonConvergence
  | n + 1, sigma_low, sigma_high =>
    let sigma_mid := (sigma_low + sigma_high) / 2
    match black_scholes_price is_call S K T r sigma_mid with
    | .error e => .error e
    | .ok price =>
      if |price - option_price| < 1e-8 then .ok sigma_mid
      else if price < option_price then
        bisection_loop is_call S K T r option_price n sigma_mid sigma_high
      else
        bisection_loop is_call S K T r option_price n sigma_low sigma_mid

/-- `bisection_implied_volatility` (lines 65-99): validation, then at most 1000
bisection steps on the fixed bracket `[0.001, 10.0]` with tolerance `1e-8`. -/
def bisection_implied_volatility (is_call : Bool) (S K T r option_price : ℝ) :
    Except BSError ℝ :=
  if option_price ≤ 0 then .error .invalidInput
  else bisection_loop is_call S K T r option_price 1000 0.001 10.0

/-- `std::numeric_limits<double>::max()`, the initial `best_price_diff`
(line 140). -/
def DBL_MAX : ℝ := 2 ^ 1024 - 2 ^ 971

/-- How the Newton-Raphson `for` loop (lines 143-194) was exited: `converged`
is the in-loop `return sigma` (line 157); `finished` carries the tracked
`best_price_diff` and `best_sigma` at exit, covering both the `break`
(line 165) and iteration exhaustion. -/
inductive NewtonLoopResult where
  | converged : ℝ → NewtonLoopResult
  | finished : ℝ → ℝ → NewtonLoopResult

/-- The initial volatility guess of `newton_raphson_implied_volatility`
(lines 111-130), in the source's priority order. -/
def newton_initial_sigma (is_call : Bool) (S K T option_price : ℝ) : ℝ :=
  if T < 0.1 then 0.5
  else if |S / K - 1.0| < 0.1 then
    max 0.1 (min (Real.sqrt (2.0 * π / T) * option_price / S) 1.0)
  else if (is_call = true ∧ S > K) ∨ (is_call = false ∧ S < K) then 0.2
  else 0.4

/-- The `for` loop of `newton_raphson_implied_volatility` (lines 143-194).
State: remaining fuel, `sigma`, `last_valid_sigma`, `best_price_diff`,
`best_sigma`.  Price/vega failures propagate (C++ exceptions are not caught
here); the small-vega branch with `last_valid_sigma > 0` is the `break`. -/
def newton_loop (is_call : Bool) (S K T r option_price : ℝ) :
    ℕ → ℝ → ℝ → ℝ → ℝ → Except BSError NewtonLoopResult
  | 0, _, _, best_price_diff, best_sigma => .ok (.finished best_price_diff best_sigma)
  | n + 1, sigma, last_valid_sigma, best_price_diff, best_sigma =>
    match black_scholes_price is_call S K T r sigma with
    | .error e => .error e
    | .ok price =>
      match black_scholes_vega S K T r sigma with
      | .error e => .error e
      | .ok vega =>
        let price_diff := |price - option_price|
        let bd := if price_diff < best_price_diff then price_diff else best_price_diff
        let bs := if price_diff < best_price_diff then sigma else best_sigma
        if |price - option_price| < 1e-6 then .ok (.converged sigma)
        else if |vega| < 1e-10 then
          if last_valid_sigma > 0 then .ok (.finished bd bs)
          else .error .nonConvergence
        else
          let adjustment := (price - option_price) / vega
          let max_adjustment := if T < 0.1 then 0.1 * sigma else 0.3 * sigma
          let adj := if |adjustment| > max_adjustment then
              (if adjustment > 0 then max_adjustment else -max_adjustment)
            else adjustment
          let new_sigma := sigma - adj
          let new_sigma2 := if new_sigma ≤ 0.0001 then 0.0001
            else if new_sigma > 5.0 then 5.0 else new_sigma
          newton_loop is_call S K T r option_price n new_sigma2 sigma bd bs

/-- `newton_raphson_implied_volatility` (lines 101-204): validation, initial
guess, at most 100 damped Newton steps, then the post-loop policy
(lines 196-203): best approximation if within `epsilon * 100`, else the
bisection fallback. -/
def newton_raphson_implied_volatility (is_call : Bool) (S K T r option_price : ℝ) :
    Except BSError ℝ :=
  if option_price ≤ 0 then .error .invalidInput
  else
    let sigma := newton_initial_sigma is_call S K T option_price
    match newton_loop is_call S K T r option_price 100 sigma sigma DBL_MAX sigma with
    | .error e => .error e
    | .ok (.converged s) => .ok s
    | .ok (.finished best_price_diff best_sigma) =>
      if best_price_diff < 1e-6 * 100 then .ok best_sigma
      else bisection_implied_volatility is_call S K T r option_price

/-- `calculate_implied_volatility` (lines 48-63).  The C++ `catch` clause only
catches `std::runtime_error` (= `nonConvergence`); `std::invalid_argument`
(= `invalidInput`) propagates past it. -/
def calculate_implied_volatility (is_call : Bool) (S K T r option_price : ℝ)
    (method : ImpliedVolatilityMethod) : Except BSError ℝ :=
  match method with
  | .NEWTON_RAPHSON =>
    match newton_raphson_implied_volatility is_call S K T r option_price with
    | .ok v => .ok v
    | .error .nonConvergence =>
      bisection_implied_volatility is_call S K T r option_price
    | .error .invalidInput => .error .invalidInput
  | .BISECTION => bisection_implied_volatility is_call S K T r option_price

/-- Acceptance tolerance on the re-priced value for each method's successful
result: `1e-8` is the bisection return condition, `1e-4` the loosest Newton
acceptance (`epsilon * 100`). -/
def method_tolerance : ImpliedVolatilityMethod → ℝ
  | .BISECTION => 1e-8
  | .NEWTON_RAPHSON => 1e-4

/-! ### Basic facts about validation -/

/-- When the preconditions hold, `black_scholes_price` returns the closed-form
value. -/
lemma black_scholes_price_ok (is_call : Bool) (S K T r sigma : ℝ)
    (hS : 0 < S) (hK : 0 < K) (hT : 0 < T) (hs : 0 ≤ sigma) :
    black_scholes_price is_call S K T r sigma = .ok (bsPriceVal is_call S K T r sigma) := by
  simp only [black_scholes_price, if_neg]
  rw [if_neg]
  push_neg
  exact ⟨hS, hK, hT, hs⟩

/-- When the preconditions hold, `black_scholes_vega` returns the vega value. -/
lemma black_scholes_vega_ok (S K T r sigma : ℝ)
    (hS : 0 < S) (hK : 0 < K) (hT : 0 < T) (hs : 0 < sigma) :
    black_scholes_vega S K T r sigma = .ok (bsVegaVal S K T r sigma) := by
  simp only [black_scholes_vega]
  rw [if_neg]
  push_neg
  exact ⟨hS, hK, hT, hs⟩

/-- Step equation of `bisection_loop` (one loop iteration). -/
lemma bisection_loop_succ (is_call : Bool) (S K T r P : ℝ) (n : ℕ) (lo hi : ℝ) :
    bisection_loop is_call S K T r P (n + 1) lo hi =
      match black_scholes_price is_call S K T r ((lo + hi) / 2) with
      | .error e => .error e
      | .ok price =>
        if |price - P| < 1e-8 then .ok ((lo + hi) / 2)
        else if price < P then bisection_loop is_call S K T r P n ((lo + hi) / 2) hi
        else bisection_loop is_call S K T r P n lo ((lo + hi) / 2) := rfl

/-- A price failure at the midpoint propagates out of the bisection loop. -/
lemma bisection_loop_error (is_call : Bool) (S K T r P : ℝ) (n : ℕ) (lo hi : ℝ)
    (e : BSError) (h : black_scholes_price is_call S K T r ((lo + hi) / 2) = .error e) :
    bisection_loop is_call S K T r P (n + 1) lo hi = .error e := by
  rw [bisection_loop_succ, h]

/-- A price failure at the current iterate propagates out of the Newton loop. -/
lemma newton_loop_error (is_call : Bool) (S K T r P : ℝ) (n : ℕ)
    (sigma last_valid_sigma best_price_diff best_sigma : ℝ) (e : BSError)
    (h : black_scholes_price is_call S K T r sigma = .error e) :
    newton_loop is_call S K T r P (n + 1) sigma last_valid_sigma
      best_price_diff best_sigma = .error e := by
  have hstep : newton_loop is_call S K T r P (n + 1) sigma last_valid_sigma
      best_price_diff best_sigma =
      match black_scholes_price is_call S K T r sigma with
      | .error e2 => .error e2
      | .ok price =>
        match black_scholes_vega S K T r sigma with
        | .error e2 => .error e2
        | .ok vega =>
          let price_diff := |price - P|
          let bd := if price_diff < best_price_diff then price_diff else best_price_diff
          let bs := if price_diff < best_price_diff then sigma else best_sigma
          if |price - P| < 1e-6 then .ok (.converged sigma)
          else if |vega| < 1e-10 then
            if last_valid_sigma > 0 then .ok (.finished bd bs)
            else .error .nonConvergence
          else
            let adjustment := (price - P) / vega
            let max_adjustment := if T < 0.1 then 0.1 * sigma else 0.3 * sigma
            let adj := if |adjustment| > max_adjustment then
                (if adjustment > 0 then max_adjustment else -max_adjustment)
              else adjustment
            let new_sigma := sigma - adj
            let new_sigma2 := if new_sigma ≤ 0.0001 then 0.0001
              else if new_sigma > 5.0 then 5.0 else new_sigma
            newton_loop is_call S K T r P n new_sigma2 sigma bd bs := rfl
  rw [hstep, h]

/-- C2: for positive option price, bisection starts from the fixed bracket
`[0.001, 10.0]` with 1000 iterations of fuel; each step evaluates the price at
the midpoint, returns the midpoint when within `1e-8` of the target, otherwise
narrows the bracket by the comparison `price < P` (no bracket-validity check);
exhausted fuel is the `NonConvergence` failure. -/
theorem bisection_algorithm (is_call : Bool) (S K T r P : ℝ) (hP : 0 < P) :
    bisection_implied_volatility is_call S K T r P =
      bisection_loop is_call S K T r P 1000 0.001 10.0 ∧
    (∀ (n : ℕ) (lo hi : ℝ),
      bisection_loop is_call S K T r P (n + 1) lo hi =
        match black_scholes_price is_call S K T r ((lo + hi) / 2) with
        | .error e => .error e
        | .ok price =>
          if |price - P| < 1e-8 then .ok ((lo + hi) / 2)
          else if price < P then
            bisection_loop is_call S K T r P n ((lo + hi) / 2) hi
          else
            bisection_loop is_call S K T r P n lo ((lo + hi) / 2)) ∧
    (∀ lo hi : ℝ, bisection_loop is_call S K T r P 0 lo hi = .error .nonConvergence) :=
  ⟨by simp only [bisection_implied_volatility, if_neg (not_le.mpr hP)],
   fun n lo hi => rfl, fun lo hi => rfl⟩

/-- Witness for `bisection_algorithm` at a concrete positive price. -/
theorem bisection_algorithm_witness :
    bisection_implied_volatility true 1 1 1 0 1 =
      bisection_loop true 1 1 1 0 1 1000 0.001 10.0 :=
  (bisection_algorithm true 1 1 1 0 1 (by norm_num)).1

/-- C3: for positive option price, Newton-Raphson runs the loop with 100
iterations of fuel from the initial guess (which also initializes the
best-so-far tracking), each step either returns on `|price - P| < 1e-6`,
breaks on small vega, or takes a damped Newton step clamped to
`[0.0001, 5.0]`; after the loop the best sigma is returned when the best
difference is below `1e-6 * 100`, else bisection is invoked. -/
theorem newton_algorithm (is_call : Bool) (S K T r P : ℝ) (hP : 0 < P) :
    newton_raphson_implied_volatility is_call S K T r P =
      (match newton_loop is_call S K T r P 100 (newton_initial_sigma is_call S K T P)
          (newton_initial_sigma is_call S K T P) DBL_MAX
          (newton_initial_sigma is_call S K T P) with
      | .error e => .error e
      | .ok (.converged s) => .ok s
      | .ok (.finished best_price_diff best_sigma) =>
        if best_price_diff < 1e-6 * 100 then .ok best_sigma
        else bisection_implied_volatility is_call S K T r P) ∧
    (∀ (n : ℕ) (sigma last_valid_sigma best_price_diff best_sigma : ℝ),
      newton_loop is_call S K T r P (n + 1) sigma last_valid_sigma
          best_price_diff best_sigma =
        match black_scholes_price is_call S K T r sigma with
        | .error e => .error e
        | .ok price =>
          match black_scholes_vega S K T r sigma with
          | .error e => .error e
          | .ok vega =>
            if |price - P| < 1e-6 then
              .ok (.converged sigma)
            else if |vega| < 1e-10 then
              (if last_valid_sigma > 0 then
                .ok (.finished
                  (if |price - P| < best_price_diff then |price - P| else best_price_diff)
                  (if |price - P| < best_price_diff then sigma else best_sigma))
              else .error .nonConvergence)
            else
              newton_loop is_call S K T r P n
                (if sigma -
                    (if |(price - P) / vega| > (if T < 0.1 then 0.1 * sigma else 0.3 * sigma)
                      then (if (price - P) / vega > 0
                        then (if T < 0.1 then 0.1 * sigma else 0.3 * sigma)
                        else -(if T < 0.1 then 0.1 * sigma else 0.3 * sigma))
                      else (price - P) / vega) ≤ 0.0001 then 0.0001
                  else if sigma -
                    (if |(price - P) / vega| > (if T < 0.1 then 0.1 * sigma else 0.3 * sigma)
                      then (if (price - P) / vega > 0
                        then (if T < 0.1 then 0.1 * sigma else 0.3 * sigma)
                        else -(if T < 0.1 then 0.1 * sigma else 0.3 * sigma))
                      else (price - P) / vega) > 5.0 then 5.0
                  else sigma -
                    (if |(price - P) / vega| > (if T < 0.1 then 0.1 * sigma else 0.3 * sigma)
                      then (if (price - P) / vega > 0
                        then (if T < 0.1 then 0.1 * sigma else 0.3 * sigma)
                        else -(if T < 0.1 then 0.1 * sigma else 0.3 * sigma))
                      else (price - P) / vega))
                sigma
                (if |price - P| < best_price_diff then |price - P| else best_price_diff)
                (if |price - P| < best_price_diff then sigma else best_sigma)) ∧
    (∀ sigma last_valid_sigma best_price_diff best_sigma : ℝ,
      newton_loop is_call S K T r P 0 sigma last_valid_sigma
          best_price_diff best_sigma = .ok (.finished best_price_diff best_sigma)) :=
  ⟨by simp only [newton_raphson_implied_volatility, if_neg (not_le.mpr hP)],
   fun n sigma lv bd bs => rfl, fun sigma lv bd bs => rfl⟩

/-- Witness for `newton_algorithm` at a concrete positive price. -/
theorem newton_algorithm_witness :
    newton_loop true 1 1 1 0 1 0 0.3 0.3 5 0.4 = .ok (.finished 5 0.4) :=
  (newton_algorithm true 1 1 1 0 1 (by norm_num)).2.2 0.3 0.3 5 0.4

/-- C4: the starting sigma of Newton-Raphson, in priority order: `0.5` for
`T < 0.1`; else the clamped Brenner-Subrahmanyam guess when `|S/K - 1| < 0.1`;
else `0.2` in the money; else `0.4`; and the solver starts its loop from it. -/
theorem newton_initial_guess (is_call : Bool) (S K T r P : ℝ) (hP : 0 < P) :
    newton_initial_sigma is_call S K T P =
      (if T < 0.1 then 0.5
       else if |S / K - 1.0| < 0.1 then
         max 0.1 (min (Real.sqrt (2.0 * π / T) * P / S) 1.0)
       else if (is_call = true ∧ S > K) ∨ (is_call = false ∧ S < K) then 0.2
       else 0.4) ∧
    newton_raphson_implied_volatility is_call S K T r P =
      (match newton_loop is_call S K T r P 100 (newton_initial_sigma is_call S K T P)
          (newton_initial_sigma is_call S K T P) DBL_MAX
          (newton_initial_sigma is_call S K T P) with
      | .error e => .error e
      | .ok (.converged s) => .ok s
      | .ok (.finished best_price_diff best_sigma) =>
        if best_price_diff < 1e-6 * 100 then .ok best_sigma
        else bisection_implied_volatility is_call S K T r P) :=
  ⟨rfl, by simp only [newton_raphson_implied_volatility, if_neg (not_le.mpr hP)]⟩

/-- Witness for `newton_initial_guess`: short-dated inputs start at `0.5`. -/
theorem newton_initial_guess_witness :
    newton_initial_sigma true 1 1 0.05 1 =
      (if (0.05:ℝ) < 0.1 then 0.5
       else if |(1:ℝ) / 1 - 1.0| < 0.1 then
         max 0.1 (min (Real.sqrt (2.0 * π / 0.05) * 1 / 1) 1.0)
       else if (true = true ∧ (1:ℝ) > 1) ∨ (true = false ∧ (1:ℝ) < 1) then 0.2
       else 0.4) :=
  (newton_initial_guess true 1 1 0.05 0 1 (by norm_num)).1

/-- C5: at the solve entry point with method `NEWTON_RAPHSON`, a
`NonConvergence` failure of the Newton-Raphson routine is caught and bisection
is retried on the same inputs, while `InvalidInput` (e.g. from `P ≤ 0`) is
surfaced immediately with no bisection retry. -/
theorem hybrid_fallback (is_call : Bool) (S K T r P : ℝ) (hP : P ≤ 0) :
    calculate_implied_volatility is_call S K T r P .NEWTON_RAPHSON =
      .error .invalidInput ∧
    (∀ Q : ℝ,
      (newton_raphson_implied_volatility is_call S K T r Q = .error .nonConvergence →
        calculate_implied_volatility is_call S K T r Q .NEWTON_RAPHSON =
          bisection_implied_volatility is_call S K T r Q) ∧
      (newton_raphson_implied_volatility is_call S K T r Q = .error .invalidInput →
        calculate_implied_volatility is_call S K T r Q .NEWTON_RAPHSON =
          .error .invalidInput)) := by
  constructor
  · simp only [calculate_implied_volatility, newton_raphson_implied_volatility, if_pos hP]
  · intro Q
    constructor
    · intro h
      simp only [calculate_implied_volatility, h]
    · intro h
      simp only [calculate_implied_volatility, h]

/-- Witness for `hybrid_fallback` at the concrete invalid price `0`. -/
theorem hybrid_fallback_witness :
    calculate_implied_volatility true 1 1 1 0 0 .NEWTON_RAPHSON =
      .error .invalidInput :=
  (hybrid_fallback true 1 1 1 0 0 le_rfl).1

/-- C6: every core routine rejects non-positive `S`, `K` or `T` with
`InvalidInput`; the pricer additionally rejects `sigma < 0`, vega rejects
`sigma ≤ 0`, and both solvers reject `option_price ≤ 0`. -/
theorem boundary_rejection :
    (∀ (is_call : Bool) (S K T r sigma : ℝ), S ≤ 0 ∨ K ≤ 0 ∨ T ≤ 0 ∨ sigma < 0 →
      black_scholes_price is_call S K T r sigma = .error .invalidInput) ∧
    (∀ S K T r sigma : ℝ, S ≤ 0 ∨ K ≤ 0 ∨ T ≤ 0 ∨ sigma ≤ 0 →
      black_scholes_vega S K T r sigma = .error .invalidInput) ∧
    (∀ (is_call : Bool) (S K T r P : ℝ), S ≤ 0 ∨ K ≤ 0 ∨ T ≤ 0 ∨ P ≤ 0 →
      bisection_implied_volatility is_call S K T r P = .error .invalidInput) ∧
    (∀ (is_call : Bool) (S K T r P : ℝ), S ≤ 0 ∨ K ≤ 0 ∨ T ≤ 0 ∨ P ≤ 0 →
      newton_raphson_implied_volatility is_call S K T r P = .error .invalidInput) := by
  have hprice : ∀ (is_call : Bool) (S K T r sigma : ℝ),
      S ≤ 0 ∨ K ≤ 0 ∨ T ≤ 0 ∨ sigma < 0 →
      black_scholes_price is_call S K T r sigma = .error .invalidInput := by
    intro ic S K T r sigma h
    simp only [black_scholes_price]
    rw [if_pos h]
  refine ⟨hprice, ?_, ?_, ?_⟩
  · intro S K T r sigma h
    simp only [black_scholes_vega]
    rw [if_pos h]
  · intro ic S K T r P h
    rcases le_or_lt P 0 with hP | hP
    · simp only [bisection_implied_volatility]
      rw [if_pos hP]
    · have hbad : S ≤ 0 ∨ K ≤ 0 ∨ T ≤ 0 := by
        rcases h with h | h | h | h
        · exact Or.inl h
        · exact Or.inr (Or.inl h)
        · exact Or.inr (Or.inr h)
        · exact absurd h (not_le.mpr hP)
      simp only [bisection_implied_volatility]
      rw [if_neg (not_le.mpr hP), show (1000:ℕ) = 999 + 1 from rfl,
        bisection_loop_error ic S K T r P 999 0.001 10.0 .invalidInput
          (hprice ic S K T r _ (by tauto))]
  · intro ic S K T r P h
    rcases le_or_lt P 0 with hP | hP
    · simp only [newton_raphson_implied_volatility]
      rw [if_pos hP]
    · have hbad : S ≤ 0 ∨ K ≤ 0 ∨ T ≤ 0 := by
        rcases h with h | h | h | h
        · exact Or.inl h
        · exact Or.inr (Or.inl h)
        · exact Or.inr (Or.inr h)
        · exact absurd h (not_le.mpr hP)
      simp only [newton_raphson_implied_volatility]
      rw [if_neg (not_le.mpr hP), show (100:ℕ) = 99 + 1 from rfl,
        newton_loop_error ic S K T r P 99 _ _ _ _ .invalidInput
          (hprice ic S K T r _ (by tauto))]

/-- Witness for `boundary_rejection`: a non-positive spot is rejected by all
four routines. -/
theorem boundary_rejection_witness :
    black_scholes_price true (-1) 1 1 0 0.2 = .error .invalidInput ∧
    black_scholes_vega (-1) 1 1 0 0.2 = .error .invalidInput ∧
    bisection_implied_volatility true (-1) 1 1 0 1 = .error .invalidInput ∧
    newton_raphson_implied_volatility true (-1) 1 1 0 1 = .error .invalidInput :=
  ⟨boundary_rejection.1 true (-1) 1 1 0 0.2 (Or.inl (by norm_num)),
   boundary_rejection.2.1 (-1) 1 1 0 0.2 (Or.inl (by norm_num)),
   boundary_rejection.2.2.1 true (-1) 1 1 0 1 (Or.inl (by norm_num)),
   boundary_rejection.2.2.2 true (-1) 1 1 0 1 (Or.inl (by norm_num))⟩

/-! ### Loop invariants of the two solvers -/

/-- The only error `black_scholes_price` produces is `invalidInput`. -/
lemma black_scholes_price_error_shape (is_call : Bool) (S K T r sigma : ℝ) (e : BSError)
    (h : black_scholes_price is_call S K T r sigma = .error e) : e = .invalidInput := by
  unfold black_scholes_price at h
  split at h
  · exact (Except.error.injEq _ _).mp h.symm
  · exact absurd h (by simp)

/-- The only error `black_scholes_vega` produces is `invalidInput`. -/
lemma black_scholes_vega_error_shape (S K T r sigma : ℝ) (e : BSError)
    (h : black_scholes_vega S K T r sigma = .error e) : e = .invalidInput := by
  unfold black_scholes_vega at h
  split at h
  · exact (Except.error.injEq _ _).mp h.symm
  · exact absurd h (by simp)

/-- The `[0.0001, 5.0]` clamp applied to each new Newton iterate
(lines 185-189). -/
lemma newton_clamp_range (x : ℝ) :
    0.0001 ≤ (if x ≤ 0.0001 then (0.0001:ℝ) else if x > 5.0 then 5.0 else x) ∧
    (if x ≤ 0.0001 then (0.0001:ℝ) else if x > 5.0 then 5.0 else x) ≤ 5 := by
  split_ifs with h1 h2
  · exact ⟨le_refl _, by norm_num⟩
  · exact ⟨by norm_num, by norm_num⟩
  · push_neg at h1 h2
    refine ⟨h1.le, ?_⟩
    linarith

/-- The initial Newton guess always lies in `[0.1, 1]`. -/
lemma newton_initial_sigma_range (is_call : Bool) (S K T P : ℝ) :
    0.1 ≤ newton_initial_sigma is_call S K T P ∧
    newton_initial_sigma is_call S K T P ≤ 1 := by
  unfold newton_initial_sigma
  split_ifs
  · exact ⟨by norm_num, by norm_num⟩
  · refine ⟨le_max_left _ _, max_le (by norm_num) ?_⟩
    exact (min_le_right _ _).trans (by norm_num)
  · exact ⟨by norm_num, by norm_num⟩
  · exact ⟨by norm_num, by norm_num⟩

/-- With positive current and last-valid sigma, the Newton loop never raises
`nonConvergence`: the small-vega branch breaks instead of failing. -/
lemma newton_loop_ne_nonConvergence (is_call : Bool) (S K T r P : ℝ) :
    ∀ (n : ℕ) (sigma lv bd bs : ℝ), 0 < sigma → 0 < lv →
      newton_loop is_call S K T r P n sigma lv bd bs ≠ .error .nonConvergence := by
  intro n
  induction n with
  | zero =>
    intro sigma lv bd bs hσ hlv
    simp [newton_loop]
  | succ n ih =>
    intro sigma lv bd bs hσ hlv
    cases hpr : black_scholes_price is_call S K T r sigma with
    | error e =>
      rw [newton_loop_error is_call S K T r P n sigma lv bd bs e hpr,
        black_scholes_price_error_shape is_call S K T r sigma e hpr]
      simp
    | ok price =>
      cases hv : black_scholes_vega S K T r sigma with
      | error e =>
        have he := black_scholes_vega_error_shape S K T r sigma e hv
        simp only [newton_loop, hpr, hv, he]
        simp
      | ok vega =>
        simp only [newton_loop, hpr, hv]
        by_cases h1 : |price - P| < 1e-6
        · rw [if_pos h1]
          simp
        · rw [if_neg h1]
          by_cases h2 : |vega| < 1e-10
          · rw [if_pos h2, if_pos hlv]
            simp
          · rw [if_neg h2]
            exact ih _ sigma _ _
              (lt_of_lt_of_le (by norm_num) (newton_clamp_range _).1) hσ

/-- C9: the `vega too small` failure of the Newton loop is unreachable: with a
positive `last_valid_sigma` (and the loop is always entered with one, since
the initial guess is at least `0.1` and all later iterates are clamped to at
least `0.0001`), a small vega reverts and breaks out with the tracked best
state instead of failing. -/
theorem vega_small_branch_safe (is_call : Bool) (S K T r P : ℝ) (n : ℕ)
    (sigma lv bd bs : ℝ) (hσ : 0 < sigma) (hlv : 0 < lv) :
    newton_loop is_call S K T r P n sigma lv bd bs ≠ .error .nonConvergence ∧
    0.1 ≤ newton_initial_sigma is_call S K T P ∧
    (∀ price vega : ℝ, black_scholes_price is_call S K T r sigma = .ok price →
      black_scholes_vega S K T r sigma = .ok vega →
      ¬ |price - P| < 1e-6 → |vega| < 1e-10 →
      newton_loop is_call S K T r P (n + 1) sigma lv bd bs =
        .ok (.finished (if |price - P| < bd then |price - P| else bd)
          (if |price - P| < bd then sigma else bs))) := by
  refine ⟨newton_loop_ne_nonConvergence is_call S K T r P n sigma lv bd bs hσ hlv,
    (newton_initial_sigma_range is_call S K T P).1, ?_⟩
  intro price vega hpr hv hconv hsmall
  simp only [newton_loop, hpr, hv]
  rw [if_neg hconv, if_pos hsmall, if_pos hlv]

/-- Witness for `vega_small_branch_safe`. -/
theorem vega_small_branch_safe_witness :
    0.1 ≤ newton_initial_sigma true 1 1 1 1 :=
  (vega_small_branch_safe true 1 1 1 0 1 0 1 1 0 1 one_pos one_pos).2.1

/-- If the bisection loop succeeds on a bracket inside `[0.001, 10]`, the
returned midpoint lies strictly inside the bracket. -/
lemma bisection_loop_ok_range (is_call : Bool) (S K T r P : ℝ) :
    ∀ (n : ℕ) (lo hi s : ℝ), 0.001 ≤ lo → hi ≤ 10.0 → lo < hi →
      bisection_loop is_call S K T r P n lo hi = .ok s → 0.001 < s ∧ s < 10.0 := by
  intro n
  induction n with
  | zero =>
    intro lo hi s _ _ _ h
    exact absurd h (by simp [bisection_loop])
  | succ n ih =>
    intro lo hi s hlo hhi hlt h
    have hmidlo : lo < (lo + hi) / 2 := by linarith
    have hmidhi : (lo + hi) / 2 < hi := by linarith
    rw [bisection_loop_succ] at h
    cases hpr : black_scholes_price is_call S K T r ((lo + hi) / 2) with
    | error e => rw [hpr] at h; exact absurd h (by simp)
    | ok price =>
      rw [hpr] at h
      simp only at h
      split_ifs at h with h1 h2
      · cases h
        exact ⟨lt_of_le_of_lt hlo hmidlo, lt_of_lt_of_le hmidhi hhi⟩
      · exact ih _ hi s (hlo.trans hmidlo.le) hhi hmidhi h
      · exact ih lo _ s hlo (hmidhi.le.trans hhi) hmidlo h

/-- With valid pricing inputs and positive bracket ends, the bisection loop
never raises `invalidInput`: every midpoint it prices is strictly positive. -/
lemma bisection_loop_ne_invalid (is_call : Bool) (S K T r P : ℝ)
    (hS : 0 < S) (hK : 0 < K) (hT : 0 < T) :
    ∀ (n : ℕ) (lo hi : ℝ), 0 < lo → 0 < hi →
      bisection_loop is_call S K T r P n lo hi ≠ .error .invalidInput := by
  intro n
  induction n with
  | zero =>
    intro lo hi _ _
    simp [bisection_loop]
  | succ n ih =>
    intro lo hi hlo hhi
    have hmid : (0:ℝ) < (lo + hi) / 2 := by linarith
    rw [bisection_loop_succ,
      black_scholes_price_ok is_call S K T r ((lo + hi) / 2) hS hK hT hmid.le]
    simp only
    split_ifs
    · simp
    · exact ih _ hi hmid hhi
    · exact ih lo _ hlo hmid

/-- The Newton loop keeps the invariant that the current iterate and the
tracked best sigma stay in `[0.0001, 5]`, hence so does any sigma it reports. -/
lemma newton_loop_ok_range (is_call : Bool) (S K T r P : ℝ) :
    ∀ (n : ℕ) (sigma lv bd bs : ℝ) (res : NewtonLoopResult),
      0.0001 ≤ sigma → sigma ≤ 5 → 0.0001 ≤ bs → bs ≤ 5 →
      newton_loop is_call S K T r P n sigma lv bd bs = .ok res →
      (match res with
       | .converged s => 0.0001 ≤ s ∧ s ≤ 5
       | .finished _ bs2 => 0.0001 ≤ bs2 ∧ bs2 ≤ 5) := by
  intro n
  induction n with
  | zero =>
    intro sigma lv bd bs res hσ1 hσ2 hbs1 hbs2 h
    have : res = .finished bd bs := by
      simpa [newton_loop] using h.symm
    rw [this]
    exact ⟨hbs1, hbs2⟩
  | succ n ih =>
    intro sigma lv bd bs res hσ1 hσ2 hbs1 hbs2 h
    cases hpr : black_scholes_price is_call S K T r sigma with
    | error e =>
      rw [newton_loop_error is_call S K T r P n sigma lv bd bs e hpr] at h
      exact absurd h (by simp)
    | ok price =>
      cases hv : black_scholes_vega S K T r sigma with
      | error e =>
        simp only [newton_loop, hpr, hv] at h
        exact absurd h (by simp)
      | ok vega =>
        simp only [newton_loop, hpr, hv] at h
        by_cases h1 : |price - P| < 1e-6
        · rw [if_pos h1] at h
          cases h
          exact ⟨hσ1, hσ2⟩
        · rw [if_neg h1] at h
          by_cases h2 : |vega| < 1e-10
          · rw [if_pos h2] at h
            by_cases h3 : lv > 0
            · rw [if_pos h3] at h
              cases h
              show 0.0001 ≤ (if |price - P| < bd then sigma else bs) ∧
                (if |price - P| < bd then sigma else bs) ≤ 5
              constructor
              · split_ifs
                · exact hσ1
                · exact hbs1
              · split_ifs
                · exact hσ2
                · exact hbs2
            · rw [if_neg h3] at h
              exact absurd h (by simp)
          · rw [if_neg h2] at h
            refine ih _ sigma _ _ res (newton_clamp_range _).1 (newton_clamp_range _).2
              ?_ ?_ h
            · split_ifs
              · exact hσ1
              · exact hbs1
            · split_ifs
              · exact hσ2
              · exact hbs2

/-- With valid pricing inputs and a positive current iterate, the Newton loop
never raises `invalidInput`: every sigma it prices is strictly positive. -/
lemma newton_loop_ne_invalid (is_call : Bool) (S K T r P : ℝ)
    (hS : 0 < S) (hK : 0 < K) (hT : 0 < T) :
    ∀ (n : ℕ) (sigma lv bd bs : ℝ), 0 < sigma →
      newton_loop is_call S K T r P n sigma lv bd bs ≠ .error .invalidInput := by
  intro n
  induction n with
  | zero =>
    intro sigma lv bd bs _
    simp [newton_loop]
  | succ n ih =>
    intro sigma lv bd bs hσ
    simp only [newton_loop, black_scholes_price_ok is_call S K T r sigma hS hK hT hσ.le,
      black_scholes_vega_ok S K T r sigma hS hK hT hσ]
    by_cases h1 : |bsPriceVal is_call S K T r sigma - P| < 1e-6
    · rw [if_pos h1]
      simp
    · rw [if_neg h1]
      by_cases h2 : |bsVegaVal S K T r sigma| < 1e-10
      · rw [if_pos h2]
        by_cases h3 : lv > 0
        · rw [if_pos h3]
          simp
        · rw [if_neg h3]
          simp
      · rw [if_neg h2]
        exact ih _ sigma _ _ (lt_of_lt_of_le (by norm_num) (newton_clamp_range _).1)

/-- C10: the solvers stay strictly inside the positive-volatility domain:
bisection results lie strictly between `0.001` and `10`, Newton results lie in
`[0.0001, 10)`, and with valid inputs neither solver ever trips the pricing
validation (`invalidInput`) — every sigma they price is strictly positive. -/
theorem solver_stays_positive (is_call : Bool) (S K T r P : ℝ)
    (hS : 0 < S) (hK : 0 < K) (hT : 0 < T) (hP : 0 < P) :
    (∀ s, bisection_implied_volatility is_call S K T r P = .ok s →
      0.001 < s ∧ s < 10.0) ∧
    (∀ s, newton_raphson_implied_volatility is_call S K T r P = .ok s →
      0.0001 ≤ s ∧ s < 10.0) ∧
    bisection_implied_volatility is_call S K T r P ≠ .error .invalidInput ∧
    newton_raphson_implied_volatility is_call S K T r P ≠ .error .invalidInput := by
  have hbis_range : ∀ s, bisection_implied_volatility is_call S K T r P = .ok s →
      0.001 < s ∧ s < 10.0 := by
    intro s h
    unfold bisection_implied_volatility at h
    rw [if_neg (not_le.mpr hP)] at h
    exact bisection_loop_ok_range is_call S K T r P 1000 0.001 10.0 s
      le_rfl le_rfl (by norm_num) h
  have hbis_ne : bisection_implied_volatility is_call S K T r P ≠
      .error .invalidInput := by
    unfold bisection_implied_volatility
    rw [if_neg (not_le.mpr hP)]
    exact bisection_loop_ne_invalid is_call S K T r P hS hK hT 1000 0.001 10.0
      (by norm_num) (by norm_num)
  have hg := newton_initial_sigma_range is_call S K T P
  have hg1 : 0.0001 ≤ newton_initial_sigma is_call S K T P := by
    have := hg.1
    linarith
  have hg2 : newton_initial_sigma is_call S K T P ≤ 5 := by
    have := hg.2
    linarith
  refine ⟨hbis_range, ?_, hbis_ne, ?_⟩
  · intro s h
    simp only [newton_raphson_implied_volatility, if_neg (not_le.mpr hP)] at h
    cases hres : newton_loop is_call S K T r P 100 (newton_initial_sigma is_call S K T P)
        (newton_initial_sigma is_call S K T P) DBL_MAX
        (newton_initial_sigma is_call S K T P) with
    | error e =>
      rw [hres] at h
      exact absurd h (by simp)
    | ok res =>
      rw [hres] at h
      have hrange := newton_loop_ok_range is_call S K T r P 100 _ _ _ _ res
        hg1 hg2 hg1 hg2 hres
      cases res with
      | converged s2 =>
        simp only [Except.ok.injEq] at h
        rw [← h]
        exact ⟨hrange.1, by linarith [hrange.2]⟩
      | finished bd2 bs2 =>
        simp only at h
        split_ifs at h
        · simp only [Except.ok.injEq] at h
          rw [← h]
          exact ⟨hrange.1, by linarith [hrange.2]⟩
        · have hb := hbis_range s h
          constructor
          · linarith [hb.1]
          · exact hb.2
  · simp only [newton_raphson_implied_volatility, if_neg (not_le.mpr hP)]
    cases hres : newton_loop is_call S K T r P 100 (newton_initial_sigma is_call S K T P)
        (newton_initial_sigma is_call S K T P) DBL_MAX
        (newton_initial_sigma is_call S K T P) with
    | error e =>
      intro hcon
      have he : e = BSError.invalidInput := by
        simpa using hcon
      rw [he] at hres
      exact newton_loop_ne_invalid is_call S K T r P hS hK hT 100 _ _ _ _
        (by linarith [hg.1]) hres
    | ok res =>
      cases res with
      | converged s2 => simp
      | finished bd2 bs2 =>
        simp only
        split_ifs
        · simp
        · exact hbis_ne

/-- Witness for `solver_stays_positive`. -/
theorem solver_stays_positive_witness :
    bisection_implied_volatility true 1 1 1 0 1 ≠ .error .invalidInput :=
  (solver_stays_positive true 1 1 1 0 1 one_pos one_pos one_pos one_pos).2.2.1

/-! ### What a successful solve guarantees about the re-priced value -/

/-- A successful bisection loop returns a sigma whose price is within `1e-8`
of the target. -/
lemma bisection_loop_ok_price (is_call : Bool) (S K T r P : ℝ) :
    ∀ (n : ℕ) (lo hi s : ℝ), bisection_loop is_call S K T r P n lo hi = .ok s →
      ∃ pr, black_scholes_price is_call S K T r s = .ok pr ∧ |pr - P| < 1e-8 := by
  intro n
  induction n with
  | zero =>
    intro lo hi s h
    exact absurd h (by simp [bisection_loop])
  | succ n ih =>
    intro lo hi s h
    rw [bisection_loop_succ] at h
    cases hpr : black_scholes_price is_call S K T r ((lo + hi) / 2) with
    | error e =>
      rw [hpr] at h
      exact absurd h (by simp)
    | ok price =>
      rw [hpr] at h
      simp only at h
      split_ifs at h with h1 h2
      · cases h
        exact ⟨price, hpr, h1⟩
      · exact ih _ hi s h
      · exact ih lo _ s h

/-- A successful `bisection_implied_volatility` returns a sigma whose price is
within `1e-8` of the target. -/
lemma bisection_ok_price (is_call : Bool) (S K T r P s : ℝ)
    (h : bisection_implied_volatility is_call S K T r P = .ok s) :
    ∃ pr, black_scholes_price is_call S K T r s = .ok pr ∧ |pr - P| < 1e-8 := by
  unfold bisection_implied_volatility at h
  split at h
  · exact absurd h (by simp)
  · exact bisection_loop_ok_price is_call S K T r P 1000 0.001 10.0 s h

/-- An in-loop Newton convergence returns a sigma whose price is within `1e-6`
of the target. -/
lemma newton_loop_converged_price (is_call : Bool) (S K T r P : ℝ) :
    ∀ (n : ℕ) (sigma lv bd bs s : ℝ),
      newton_loop is_call S K T r P n sigma lv bd bs = .ok (.converged s) →
      ∃ pr, black_scholes_price is_call S K T r s = .ok pr ∧ |pr - P| < 1e-6 := by
  intro n
  induction n with
  | zero =>
    intro sigma lv bd bs s h
    exact absurd h (by simp [newton_loop])
  | succ n ih =>
    intro sigma lv bd bs s h
    cases hpr : black_scholes_price is_call S K T r sigma with
    | error e =>
      rw [newton_loop_error is_call S K T r P n sigma lv bd bs e hpr] at h
      exact absurd h (by simp)
    | ok price =>
      cases hv : black_scholes_vega S K T r sigma with
      | error e =>
        simp only [newton_loop, hpr, hv] at h
        exact absurd h (by simp)
      | ok vega =>
        simp only [newton_loop, hpr, hv] at h
        by_cases h1 : |price - P| < 1e-6
        · rw [if_pos h1] at h
          simp only [Except.ok.injEq, NewtonLoopResult.converged.injEq] at h
          rw [← h]
          exact ⟨price, hpr, h1⟩
        · rw [if_neg h1] at h
          by_cases h2 : |vega| < 1e-10
          · rw [if_pos h2] at h
            by_cases h3 : lv > 0
            · rw [if_pos h3] at h
              exact absurd h (by simp)
            · rw [if_neg h3] at h
              exact absurd h (by simp)
          · rw [if_neg h2] at h
            exact ih _ sigma _ _ s h

/-- Invariant carried by the best-approximation tracking: either the best
difference is still at least `1e-4`, or the best sigma re-prices within the
best difference of the target. -/
def BestInv (is_call : Bool) (S K T r P bd bs : ℝ) : Prop :=
  1e-4 ≤ bd ∨ ∃ pr, black_scholes_price is_call S K T r bs = .ok pr ∧ |pr - P| ≤ bd

/-- The Newton loop preserves `BestInv` from its initial best state to the
best state it reports on finishing. -/
lemma newton_loop_finished_best (is_call : Bool) (S K T r P : ℝ) :
    ∀ (n : ℕ) (sigma lv bd bs bd2 bs2 : ℝ),
      BestInv is_call S K T r P bd bs →
      newton_loop is_call S K T r P n sigma lv bd bs = .ok (.finished bd2 bs2) →
      BestInv is_call S K T r P bd2 bs2 := by
  intro n
  induction n with
  | zero =>
    intro sigma lv bd bs bd2 bs2 hinv h
    simp only [newton_loop, Except.ok.injEq, NewtonLoopResult.finished.injEq] at h
    rw [← h.1, ← h.2]
    exact hinv
  | succ n ih =>
    intro sigma lv bd bs bd2 bs2 hinv h
    cases hpr : black_scholes_price is_call S K T r sigma with
    | error e =>
      rw [newton_loop_error is_call S K T r P n sigma lv bd bs e hpr] at h
      exact absurd h (by simp)
    | ok price =>
      cases hv : black_scholes_vega S K T r sigma with
      | error e =>
        simp only [newton_loop, hpr, hv] at h
        exact absurd h (by simp)
      | ok vega =>
        have hupd : BestInv is_call S K T r P
            (if |price - P| < bd then |price - P| else bd)
            (if |price - P| < bd then sigma else bs) := by
          by_cases h4 : |price - P| < bd
          · simp only [if_pos h4]
            exact Or.inr ⟨price, hpr, le_refl _⟩
          · simp only [if_neg h4]
            exact hinv
        simp only [newton_loop, hpr, hv] at h
        by_cases h1 : |price - P| < 1e-6
        · rw [if_pos h1] at h
          exact absurd h (by simp)
        · rw [if_neg h1] at h
          by_cases h2 : |vega| < 1e-10
          · rw [if_pos h2] at h
            by_cases h3 : lv > 0
            · rw [if_pos h3] at h
              simp only [Except.ok.injEq, NewtonLoopResult.finished.injEq] at h
              rw [← h.1, ← h.2]
              exact hupd
            · rw [if_neg h3] at h
              exact absurd h (by simp)
          · rw [if_neg h2] at h
            exact ih _ sigma _ _ bd2 bs2 hupd h

/-- A successful `newton_raphson_implied_volatility` returns a sigma whose
price is within `1e-4` (the loosest acceptance, `epsilon * 100`) of the
target. -/
lemma newton_ok_price (is_call : Bool) (S K T r P s : ℝ)
    (h : newton_raphson_implied_volatility is_call S K T r P = .ok s) :
    ∃ pr, black_scholes_price is_call S K T r s = .ok pr ∧ |pr - P| < 1e-4 := by
  simp only [newton_raphson_implied_volatility] at h
  split at h
  · exact absurd h (by simp)
  · cases hres : newton_loop is_call S K T r P 100 (newton_initial_sigma is_call S K T P)
        (newton_initial_sigma is_call S K T P) DBL_MAX
        (newton_initial_sigma is_call S K T P) with
    | error e =>
      rw [hres] at h
      exact absurd h (by simp)
    | ok res =>
      rw [hres] at h
      cases res with
      | converged s2 =>
        simp only [Except.ok.injEq] at h
        rw [← h]
        obtain ⟨pr, hpr, hlt⟩ :=
          newton_loop_converged_price is_call S K T r P 100 _ _ _ _ s2 hres
        exact ⟨pr, hpr, hlt.trans (by norm_num)⟩
      | finished bd2 bs2 =>
        simp only at h
        split_ifs at h with hbd
        · simp only [Except.ok.injEq] at h
          rw [← h]
          have hinv := newton_loop_finished_best is_call S K T r P 100 _ _ _ _ bd2 bs2
            (Or.inl (by norm_num [DBL_MAX])) hres
          rcases hinv with hge | ⟨pr, hpr, hle⟩
          · exfalso
            have : (1e-6:ℝ) * 100 = 1e-4 := by norm_num
            linarith
          · refine ⟨pr, hpr, lt_of_le_of_lt hle ?_⟩
            have : (1e-6:ℝ) * 100 = 1e-4 := by norm_num
            linarith
        · obtain ⟨pr, hpr, hlt⟩ := bisection_ok_price is_call S K T r P s h
          exact ⟨pr, hpr, hlt.trans (by norm_num)⟩

/-- C1 (amended): the round trip through the solver reproduces the *price*,
not the volatility: for valid inputs with `sigma ∈ (0.01, 1)`, if
`calculate_implied_volatility` on `P = price(sigma)` returns a value, then
re-pricing that value lands within the method's acceptance tolerance of `P`
(`1e-8` for bisection, `1e-4` for Newton-Raphson).  The stronger bound
`|sigma' - sigma| < 1e-3` on the volatility itself is refuted by
`round_trip_sigma_counterexample`. -/
theorem round_trip_price_tolerance (is_call : Bool) (S K T r sigma P s : ℝ)
    (m : ImpliedVolatilityMethod)
    (hS : 0 < S) (hK : 0 < K) (hT : 0 < T)
    (hσl : 0.01 < sigma) (hσh : sigma < 1.0)
    (hP : black_scholes_price is_call S K T r sigma = .ok P)
    (hs : calculate_implied_volatility is_call S K T r P m = .ok s) :
    ∃ pr, black_scholes_price is_call S K T r s = .ok pr ∧
      |pr - P| < method_tolerance m := by
  cases m with
  | BISECTION =>
    simp only [calculate_implied_volatility] at hs
    exact bisection_ok_price is_call S K T r P s hs
  | NEWTON_RAPHSON =>
    simp only [calculate_implied_volatility] at hs
    cases hn : newton_raphson_implied_volatility is_call S K T r P with
    | ok v =>
      rw [hn] at hs
      simp only [Except.ok.injEq] at hs
      rw [← hs]
      exact newton_ok_price is_call S K T r P v hn
    | error e =>
      rw [hn] at hs
      cases e with
      | invalidInput => exact absurd hs (by simp)
      | nonConvergence =>
        obtain ⟨pr, hpr, hlt⟩ := bisection_ok_price is_call S K T r P s hs
        exact ⟨pr, hpr, hlt.trans (by norm_num [method_tolerance])⟩

/-! ### Analysis of the closed-form price: monotonicity and parity -/

lemma continuous_exp_neg_sq : Continuous fun t : ℝ => Real.exp (-t ^ 2) :=
  Real.continuous_exp.comp (continuous_pow 2).neg

lemma erf_hasDerivAt (x : ℝ) :
    HasDerivAt erf (2 / Real.sqrt π * Real.exp (-x ^ 2)) x :=
  ((continuous_exp_neg_sq.integral_hasStrictDerivAt 0 x).hasDerivAt).const_mul
    (2 / Real.sqrt π)

lemma norm_pdf_pos (x : ℝ) : 0 < norm_pdf x := by
  unfold norm_pdf
  have h2π : (0:ℝ) < Real.sqrt (2.0 * π) := Real.sqrt_pos.mpr (by positivity)
  exact mul_pos (by positivity) (Real.exp_pos _)

lemma norm_pdf_neg (x : ℝ) : norm_pdf (-x) = norm_pdf x := by
  unfold norm_pdf
  rw [show -(0.5:ℝ) * -x * -x = -(0.5) * x * x from by ring]

lemma norm_cdf_hasDerivAt (x : ℝ) : HasDerivAt norm_cdf (norm_pdf x) x := by
  have hinner : HasDerivAt (fun y : ℝ => y / Real.sqrt 2) (1 / Real.sqrt 2) x := by
    simpa using (hasDerivAt_id x).div_const (Real.sqrt 2)
  have hcomp : HasDerivAt (fun y : ℝ => erf (y / Real.sqrt 2))
      (2 / Real.sqrt π * Real.exp (-(x / Real.sqrt 2) ^ 2) * (1 / Real.sqrt 2)) x :=
    (erf_hasDerivAt (x / Real.sqrt 2)).comp x hinner
  have h := (hcomp.const_add 1).const_mul (0.5 : ℝ)
  unfold norm_cdf
  convert h using 1
  unfold norm_pdf
  rw [show (-(x / Real.sqrt 2) ^ 2 : ℝ) = -(0.5) * x * x from by
    rw [div_pow, Real.sq_sqrt (by norm_num : (0:ℝ) ≤ 2)]
    ring]
  rw [Real.sqrt_mul (by norm_num : (0:ℝ) ≤ 2.0) π]
  have h2 : Real.sqrt 2 ≠ 0 := (Real.sqrt_pos.mpr two_pos).ne'
  have hπ : Real.sqrt π ≠ 0 := (Real.sqrt_pos.mpr Real.pi_pos).ne'
  rw [show Real.sqrt (2.0:ℝ) = Real.sqrt 2 from by norm_num]
  field_simp
  ring

lemma erf_neg (y : ℝ) : erf (-y) = -erf y := by
  unfold erf
  have h1 : (∫ t in (0:ℝ)..(-y), Real.exp (-t ^ 2)) =
      ∫ t in (0:ℝ)..(-y), Real.exp (-(-t) ^ 2) := by
    apply intervalIntegral.integral_congr
    intro t ht
    simp [neg_sq]
  have h2 : (∫ t in (0:ℝ)..(-y), Real.exp (-(-t) ^ 2)) =
      ∫ t in -(-y)..-(0:ℝ), Real.exp (-t ^ 2) :=
    intervalIntegral.integral_comp_neg (fun u : ℝ => Real.exp (-u ^ 2))
  rw [h1, h2, neg_neg, neg_zero, intervalIntegral.integral_symm]
  ring

lemma norm_cdf_add_neg (x : ℝ) : norm_cdf x + norm_cdf (-x) = 1 := by
  unfold norm_cdf
  rw [show (-x / Real.sqrt 2 : ℝ) = -(x / Real.sqrt 2) from by ring, erf_neg]
  ring

lemma bs_d1_hasDerivAt (S K T r : ℝ) (hT : 0 < T) (σ : ℝ) (hσ : 0 < σ) :
    HasDerivAt (fun s => bs_d1 S K T r s)
      (Real.sqrt T / 2 -
        (Real.log (S / K) + r * T) / (σ ^ 2 * Real.sqrt T)) σ := by
  have hc : (0:ℝ) < Real.sqrt T := Real.sqrt_pos.mpr hT
  have hN : HasDerivAt (fun s : ℝ => Real.log (S / K) + (r + s * s / 2) * T)
      ((((1:ℝ) * σ + σ * 1) / 2) * T) σ :=
    (((((hasDerivAt_id σ).mul (hasDerivAt_id σ)).div_const 2).const_add r).mul_const
      T).const_add (Real.log (S / K))
  have hD : HasDerivAt (fun s : ℝ => s * Real.sqrt T) ((1:ℝ) * Real.sqrt T) σ :=
    (hasDerivAt_id σ).mul_const _
  have hD0 : σ * Real.sqrt T ≠ 0 := (mul_pos hσ hc).ne'
  have h := hN.div hD hD0
  convert h using 1
  generalize hcg : Real.sqrt T = c
  have hT2 : T = c ^ 2 := by rw [← hcg, Real.sq_sqrt hT.le]
  have hcne : c ≠ 0 := by rw [← hcg]; exact hc.ne'
  rw [hT2]
  field_simp
  ring

lemma bs_d2_hasDerivAt (S K T r : ℝ) (hT : 0 < T) (σ : ℝ) (hσ : 0 < σ) :
    HasDerivAt (fun s => bs_d2 S K T r s)
      (-(Real.sqrt T) / 2 -
        (Real.log (S / K) + r * T) / (σ ^ 2 * Real.sqrt T)) σ := by
  have h := (bs_d1_hasDerivAt S K T r hT σ hσ).sub
    ((hasDerivAt_id σ).mul_const (Real.sqrt T))
  convert h using 1
  ring

/-- The classical identity `S·φ(d1) = K·e^(-rT)·φ(d2)`, the reason vega is the
same for calls and puts and the price derivative collapses to `S·√T·φ(d1)`. -/
lemma bs_pdf_identity (S K T r σ : ℝ)
    (hS : 0 < S) (hK : 0 < K) (hT : 0 < T) (hσ : 0 < σ) :
    S * norm_pdf (bs_d1 S K T r σ) =
      K * Real.exp (-r * T) * norm_pdf (bs_d2 S K T r σ) := by
  have hc : (0:ℝ) < Real.sqrt T := Real.sqrt_pos.mpr hT
  have hne : σ * Real.sqrt T ≠ 0 := (mul_pos hσ hc).ne'
  have hd1 : bs_d1 S K T r σ * (σ * Real.sqrt T) =
      Real.log (S / K) + (r + σ * σ / 2) * T := by
    unfold bs_d1
    field_simp
    ring
  have ha : (σ * Real.sqrt T) ^ 2 = σ ^ 2 * T := by
    rw [mul_pow, Real.sq_sqrt hT.le]
  have hdiff : bs_d1 S K T r σ ^ 2 - bs_d2 S K T r σ ^ 2 =
      2 * (Real.log (S / K) + r * T) := by
    have hexp : bs_d1 S K T r σ ^ 2 - bs_d2 S K T r σ ^ 2 =
        2 * (bs_d1 S K T r σ * (σ * Real.sqrt T)) - (σ * Real.sqrt T) ^ 2 := by
      unfold bs_d2
      ring
    rw [hexp, hd1, ha]
    ring
  have hL : Real.log (S / K) = Real.log S - Real.log K := Real.log_div hS.ne' hK.ne'
  have hKS : K / S = Real.exp (Real.log K - Real.log S) := by
    rw [Real.exp_sub, Real.exp_log hK, Real.exp_log hS]
  unfold norm_pdf
  have he : Real.exp (-(0.5) * bs_d1 S K T r σ * bs_d1 S K T r σ) =
      Real.exp (-(0.5) * bs_d2 S K T r σ * bs_d2 S K T r σ) *
        (K / S * Real.exp (-r * T)) := by
    rw [hKS, ← Real.exp_add, ← Real.exp_add]
    congr 1
    rw [hL] at hdiff
    linear_combination (-(0.5:ℝ)) * hdiff
  rw [he]
  have h2π : Real.sqrt (2.0 * π) ≠ 0 := (Real.sqrt_pos.mpr (by positivity)).ne'
  field_simp
  ring

/-- Derivative of the closed-form price in sigma: the (unscaled) vega
`S·√T·φ(d1)`, for calls and puts alike. -/
lemma bsPriceVal_hasDerivAt (is_call : Bool) (S K T r : ℝ)
    (hS : 0 < S) (hK : 0 < K) (hT : 0 < T) (σ : ℝ) (hσ : 0 < σ) :
    HasDerivAt (fun s => bsPriceVal is_call S K T r s)
      (S * Real.sqrt T * norm_pdf (bs_d1 S K T r σ)) σ := by
  have hd1 := bs_d1_hasDerivAt S K T r hT σ hσ
  have hd2 := bs_d2_hasDerivAt S K T r hT σ hσ
  have hid := bs_pdf_identity S K T r σ hS hK hT hσ
  cases is_call with
  | true =>
    have hΦ1 : HasDerivAt (fun s => norm_cdf (bs_d1 S K T r s))
        (norm_pdf (bs_d1 S K T r σ) *
          (Real.sqrt T / 2 -
            (Real.log (S / K) + r * T) / (σ ^ 2 * Real.sqrt T))) σ :=
      (norm_cdf_hasDerivAt _).comp σ hd1
    have hΦ2 : HasDerivAt (fun s => norm_cdf (bs_d2 S K T r s))
        (norm_pdf (bs_d2 S K T r σ) *
          (-(Real.sqrt T) / 2 -
            (Real.log (S / K) + r * T) / (σ ^ 2 * Real.sqrt T))) σ :=
      (norm_cdf_hasDerivAt _).comp σ hd2
    have hfun : (fun s => bsPriceVal true S K T r s) =
        fun s => S * norm_cdf (bs_d1 S K T r s) -
          K * Real.exp (-r * T) * norm_cdf (bs_d2 S K T r s) := by
      funext s
      simp [bsPriceVal]
    rw [hfun]
    have h := (hΦ1.const_mul S).sub (hΦ2.const_mul (K * Real.exp (-r * T)))
    convert h using 1
    linear_combination (Real.sqrt T / 2 +
      (Real.log (S / K) + r * T) / (σ ^ 2 * Real.sqrt T)) * hid
  | false =>
    have hΦ1 : HasDerivAt (fun s => norm_cdf (-bs_d1 S K T r s))
        (norm_pdf (-bs_d1 S K T r σ) *
          -(Real.sqrt T / 2 -
            (Real.log (S / K) + r * T) / (σ ^ 2 * Real.sqrt T))) σ :=
      (norm_cdf_hasDerivAt _).comp σ hd1.neg
    have hΦ2 : HasDerivAt (fun s => norm_cdf (-bs_d2 S K T r s))
        (norm_pdf (-bs_d2 S K T r σ) *
          -(-(Real.sqrt T) / 2 -
            (Real.log (S / K) + r * T) / (σ ^ 2 * Real.sqrt T))) σ :=
      (norm_cdf_hasDerivAt _).comp σ hd2.neg
    rw [norm_pdf_neg] at hΦ1 hΦ2
    have hfun : (fun s => bsPriceVal false S K T r s) =
        fun s => K * Real.exp (-r * T) * norm_cdf (-bs_d2 S K T r s) -
          S * norm_cdf (-bs_d1 S K T r s) := by
      funext s
      simp [bsPriceVal]
    rw [hfun]
    have h := (hΦ2.const_mul (K * Real.exp (-r * T))).sub (hΦ1.const_mul S)
    convert h using 1
    linear_combination (Real.sqrt T / 2 +
      (Real.log (S / K) + r * T) / (σ ^ 2 * Real.sqrt T)) * hid

/-- C7: for fixed valid `(is_call, S, K, T, r)`, the closed-form price is
strictly increasing in sigma on `(0, ∞)`, and on that region
`black_scholes_price` returns exactly that closed-form value. -/
theorem price_strictly_increasing (is_call : Bool) (S K T r : ℝ)
    (hS : 0 < S) (hK : 0 < K) (hT : 0 < T) :
    StrictMonoOn (fun sigma => bsPriceVal is_call S K T r sigma) (Set.Ioi 0) ∧
    (∀ sigma : ℝ, 0 < sigma →
      black_scholes_price is_call S K T r sigma =
        .ok (bsPriceVal is_call S K T r sigma)) := by
  constructor
  · apply strictMonoOn_of_deriv_pos (convex_Ioi 0)
    · intro σ hσ
      exact (bsPriceVal_hasDerivAt is_call S K T r hS hK hT σ
        hσ).differentiableAt.continuousAt.continuousWithinAt
    · intro σ hσ
      rw [interior_Ioi] at hσ
      rw [(bsPriceVal_hasDerivAt is_call S K T r hS hK hT σ hσ).deriv]
      exact mul_pos (mul_pos hS (Real.sqrt_pos.mpr hT))
        (norm_pdf_pos (bs_d1 S K T r σ))
  · intro σ hσ
    exact black_scholes_price_ok is_call S K T r σ hS hK hT hσ.le

/-- Witness for `price_strictly_increasing`. -/
theorem price_strictly_increasing_witness :
    StrictMonoOn (fun sigma => bsPriceVal true 1 1 1 0 sigma) (Set.Ioi 0) :=
  (price_strictly_increasing true 1 1 1 0 one_pos one_pos one_pos).1

/-- C8: put-call parity: with matching valid parameters and `sigma ≥ 0`,
`price(call) - price(put) = S - K·e^(-rT)`. -/
theorem put_call_parity (S K T r sigma : ℝ)
    (hS : 0 < S) (hK : 0 < K) (hT : 0 < T) (hσ : 0 ≤ sigma) :
    ∃ c p, black_scholes_price true S K T r sigma = .ok c ∧
      black_scholes_price false S K T r sigma = .ok p ∧
      c - p = S - K * Real.exp (-r * T) := by
  refine ⟨_, _, black_scholes_price_ok true S K T r sigma hS hK hT hσ,
    black_scholes_price_ok false S K T r sigma hS hK hT hσ, ?_⟩
  have h1 := norm_cdf_add_neg (bs_d1 S K T r sigma)
  have h2 := norm_cdf_add_neg (bs_d2 S K T r sigma)
  rw [show bsPriceVal true S K T r sigma =
      S * norm_cdf (bs_d1 S K T r sigma) -
        K * Real.exp (-r * T) * norm_cdf (bs_d2 S K T r sigma) from by
    simp [bsPriceVal]]
  rw [show bsPriceVal false S K T r sigma =
      K * Real.exp (-r * T) * norm_cdf (-bs_d2 S K T r sigma) -
        S * norm_cdf (-bs_d1 S K T r sigma) from by
    simp [bsPriceVal]]
  linear_combination S * h1 - K * Real.exp (-r * T) * h2

/-- Witness for `put_call_parity`. -/
theorem put_call_parity_witness :
    ∃ c p, black_scholes_price true 1 1 1 0 0 = .ok c ∧
      black_scholes_price false 1 1 1 0 0 = .ok p ∧
      c - p = 1 - 1 * Real.exp (-0 * 1) :=
  put_call_parity 1 1 1 0 0 one_pos one_pos one_pos le_rfl

/-! ### Quantitative bounds on the normal CDF far in the tail -/

lemma norm_cdf_sub (a b : ℝ) :
    norm_cdf b - norm_cdf a =
      1 / Real.sqrt π *
        ∫ t in (a / Real.sqrt 2)..(b / Real.sqrt 2), Real.exp (-t ^ 2) := by
  unfold norm_cdf erf
  rw [← intervalIntegral.integral_interval_sub_left
    (continuous_exp_neg_sq.intervalIntegrable 0 (b / Real.sqrt 2))
    (continuous_exp_neg_sq.intervalIntegrable 0 (a / Real.sqrt 2))]
  ring

lemma norm_cdf_monotone : Monotone norm_cdf := by
  intro u v huv
  have h : 0 ≤ norm_cdf v - norm_cdf u := by
    rw [norm_cdf_sub]
    have hd : u / Real.sqrt 2 ≤ v / Real.sqrt 2 := by
      gcongr
    have hint : 0 ≤ ∫ t in (u / Real.sqrt 2)..(v / Real.sqrt 2), Real.exp (-t ^ 2) :=
      intervalIntegral.integral_nonneg hd fun x hx => (Real.exp_pos _).le
    exact mul_nonneg (by positivity) hint
  linarith

lemma norm_cdf_half (x : ℝ) (hx : 0 ≤ x) : 1 / 2 ≤ norm_cdf x := by
  unfold norm_cdf erf
  have h : 0 ≤ ∫ t in (0:ℝ)..(x / Real.sqrt 2), Real.exp (-t ^ 2) :=
    intervalIntegral.integral_nonneg (div_nonneg hx (Real.sqrt_nonneg 2))
      fun u hu => (Real.exp_pos _).le
  have hc : (0:ℝ) ≤ 2 / Real.sqrt π := by positivity
  nlinarith

lemma integral_self_mul_exp_neg_sq (u v : ℝ) :
    (∫ t in u..v, t * Real.exp (-t ^ 2)) =
      Real.exp (-u ^ 2) / 2 - Real.exp (-v ^ 2) / 2 := by
  have hderiv : ∀ t ∈ Set.uIcc u v,
      HasDerivAt (fun y : ℝ => -Real.exp (-y ^ 2) / 2) (t * Real.exp (-t ^ 2)) t := by
    intro t ht
    have h1 : HasDerivAt (fun y : ℝ => -y ^ 2) (-(2 * t)) t := by
      simpa using (hasDerivAt_pow 2 t).neg
    have h3 := h1.exp.neg.div_const 2
    convert h3 using 1
    ring
  have hint : IntervalIntegrable (fun t : ℝ => t * Real.exp (-t ^ 2)) volume u v :=
    (continuous_id.mul continuous_exp_neg_sq).intervalIntegrable u v
  rw [intervalIntegral.integral_eq_sub_of_hasDerivAt hderiv hint]
  ring

lemma exp_neg_sq_integral_le (u v : ℝ) (hu : 92 ≤ u) (huv : u ≤ v) :
    (∫ t in u..v, Real.exp (-t ^ 2)) ≤ Real.exp (-(92:ℝ) ^ 2) := by
  have hg : IntervalIntegrable (fun t : ℝ => t / 92 * Real.exp (-t ^ 2)) volume u v :=
    Continuous.intervalIntegrable (by continuity) u v
  have hmono : (∫ t in u..v, Real.exp (-t ^ 2)) ≤
      ∫ t in u..v, t / 92 * Real.exp (-t ^ 2) := by
    apply intervalIntegral.integral_mono_on huv
      (continuous_exp_neg_sq.intervalIntegrable u v) hg
    intro t ht
    have h92 : (92:ℝ) ≤ t := le_trans hu ht.1
    have h1 : (1:ℝ) ≤ t / 92 := by
      rw [le_div_iff (by norm_num : (0:ℝ) < 92)]
      linarith
    nlinarith [Real.exp_pos (-t ^ 2)]
  have heq : (∫ t in u..v, t / 92 * Real.exp (-t ^ 2)) =
      1 / 92 * ∫ t in u..v, t * Real.exp (-t ^ 2) := by
    rw [← intervalIntegral.integral_const_mul]
    apply intervalIntegral.integral_congr
    intro t ht
    ring
  have hanti := integral_self_mul_exp_neg_sq u v
  have hexp_le : Real.exp (-u ^ 2) ≤ Real.exp (-(92:ℝ) ^ 2) := by
    apply Real.exp_le_exp.mpr
    nlinarith
  calc (∫ t in u..v, Real.exp (-t ^ 2))
      ≤ 1 / 92 * ∫ t in u..v, t * Real.exp (-t ^ 2) := by
        rw [← heq]
        exact hmono
    _ = 1 / 92 * (Real.exp (-u ^ 2) / 2 - Real.exp (-v ^ 2) / 2) := by rw [hanti]
    _ ≤ Real.exp (-(92:ℝ) ^ 2) := by
        have hB := Real.exp_pos (-v ^ 2)
        have hC := Real.exp_pos (-(92:ℝ) ^ 2)
        set A := Real.exp (-u ^ 2) with hA
        set B := Real.exp (-v ^ 2) with hBdef
        set C := Real.exp (-(92:ℝ) ^ 2) with hCdef
        linarith

lemma sqrt_two_le : Real.sqrt 2 ≤ 1.5 := by
  rw [show (1.5:ℝ) = Real.sqrt (1.5 ^ 2) from (Real.sqrt_sq (by norm_num)).symm]
  exact Real.sqrt_le_sqrt (by norm_num)

lemma norm_cdf_diff_le (u v : ℝ) (hu : 138 ≤ u) (huv : u ≤ v) :
    norm_cdf v - norm_cdf u ≤ Real.exp (-(92:ℝ) ^ 2) := by
  rw [norm_cdf_sub]
  have hs2pos : (0:ℝ) < Real.sqrt 2 := Real.sqrt_pos.mpr two_pos
  have hu92 : (92:ℝ) ≤ u / Real.sqrt 2 := by
    rw [le_div_iff hs2pos]
    nlinarith [sqrt_two_le]
  have huv2 : u / Real.sqrt 2 ≤ v / Real.sqrt 2 := by
    gcongr
  have hint := exp_neg_sq_integral_le _ _ hu92 huv2
  have hπ : (1:ℝ) ≤ Real.sqrt π := by
    rw [show (1:ℝ) = Real.sqrt 1 from Real.sqrt_one.symm]
    exact Real.sqrt_le_sqrt (by linarith [Real.pi_gt_three])
  have hnn : 0 ≤ ∫ t in (u / Real.sqrt 2)..(v / Real.sqrt 2), Real.exp (-t ^ 2) :=
    intervalIntegral.integral_nonneg huv2 fun x hx => (Real.exp_pos _).le
  calc 1 / Real.sqrt π *
      ∫ t in (u / Real.sqrt 2)..(v / Real.sqrt 2), Real.exp (-t ^ 2)
      ≤ 1 * Real.exp (-(92:ℝ) ^ 2) := by
        apply mul_le_mul _ hint hnn zero_le_one
        rw [div_le_one (by linarith)]
        exact hπ
    _ = Real.exp (-(92:ℝ) ^ 2) := one_mul _

lemma norm_cdf_diff_abs (a b : ℝ) (ha : 138 ≤ a) (hb : 138 ≤ b) :
    |norm_cdf a - norm_cdf b| ≤ Real.exp (-(92:ℝ) ^ 2) := by
  rcases le_total a b with h | h
  · have h1 := norm_cdf_diff_le a b ha h
    have h2 := norm_cdf_monotone h
    rw [abs_sub_comm, abs_of_nonneg (by linarith)]
    linarith
  · have h1 := norm_cdf_diff_le b a hb h
    have h2 := norm_cdf_monotone h
    rw [abs_of_nonneg (by linarith)]
    linarith

lemma exp_neg_92_sq_lt : Real.exp (-(92:ℝ) ^ 2) < 1e-9 := by
  have h2 : (2:ℝ) < Real.exp 1 := by
    linarith [Real.exp_one_gt_d9]
  have e2 : Real.exp ((8464:ℝ)) = Real.exp 1 ^ (8464:ℕ) := by
    rw [← Real.exp_nat_mul]
    norm_num
  have e3 : (2:ℝ) ^ (8464:ℕ) ≤ Real.exp 1 ^ (8464:ℕ) :=
    pow_le_pow_left (by norm_num) h2.le _
  have e4 : (2:ℝ) ^ (40:ℕ) ≤ (2:ℝ) ^ (8464:ℕ) :=
    pow_le_pow_right (by norm_num) (by norm_num)
  have hbig : (10:ℝ) ^ (9:ℕ) < Real.exp 8464 := by
    rw [e2]
    calc (10:ℝ) ^ (9:ℕ) < 2 ^ (40:ℕ) := by norm_num
      _ ≤ 2 ^ (8464:ℕ) := e4
      _ ≤ Real.exp 1 ^ (8464:ℕ) := e3
  have hrw : Real.exp (-(92:ℝ) ^ 2) = (Real.exp 8464)⁻¹ := by
    rw [← Real.exp_neg]
    norm_num
  rw [hrw]
  have h10 : (0:ℝ) < 10 ^ (9:ℕ) := by positivity
  have := (inv_lt_inv (Real.exp_pos _) h10).mpr hbig
  calc (Real.exp 8464)⁻¹ < ((10:ℝ) ^ (9:ℕ))⁻¹ := this
    _ = 1e-9 := by norm_num

/-! ### A deep in-the-money, short-maturity input on which the sigma
round-trip fails: the price is flat in sigma to far below the bisection
tolerance, so the very first midpoint is accepted. -/

lemma sqrtT0 : Real.sqrt (1 / 1000000 : ℝ) = 1 / 1000 := by
  rw [show (1 / 1000000 : ℝ) = (1 / 1000) ^ 2 from by norm_num,
    Real.sqrt_sq (by norm_num)]

lemma d1_half_ge : (139:ℝ) ≤ bs_d1 2 1 (1 / 1000000) 0 (1 / 2) := by
  unfold bs_d1
  rw [sqrtT0, show ((2:ℝ) / 1) = 2 from by norm_num]
  rw [le_div_iff (by norm_num)]
  linarith [Real.log_two_gt_d9]

lemma d2_half_ge : (138:ℝ) ≤ bs_d2 2 1 (1 / 1000000) 0 (1 / 2) := by
  unfold bs_d2
  rw [sqrtT0]
  linarith [d1_half_ge]

lemma d1_mid_ge : (138.1:ℝ) ≤ bs_d1 2 1 (1 / 1000000) 0 (10001 / 2000) := by
  unfold bs_d1
  rw [sqrtT0, show ((2:ℝ) / 1) = 2 from by norm_num]
  rw [le_div_iff (by norm_num)]
  linarith [Real.log_two_gt_d9]

lemma d2_mid_ge : (138:ℝ) ≤ bs_d2 2 1 (1 / 1000000) 0 (10001 / 2000) := by
  unfold bs_d2
  rw [sqrtT0]
  linarith [d1_mid_ge]

lemma bsPriceVal_deep (σ : ℝ) :
    bsPriceVal true 2 1 (1 / 1000000) 0 σ =
      2 * norm_cdf (bs_d1 2 1 (1 / 1000000) 0 σ) -
        norm_cdf (bs_d2 2 1 (1 / 1000000) 0 σ) := by
  simp only [bsPriceVal, if_true]
  norm_num [Real.exp_zero]

lemma price_diff_small :
    |bsPriceVal true 2 1 (1 / 1000000) 0 (10001 / 2000) -
      bsPriceVal true 2 1 (1 / 1000000) 0 (1 / 2)| < 1e-8 := by
  rw [bsPriceVal_deep, bsPriceVal_deep]
  have h1 := norm_cdf_diff_abs (bs_d1 2 1 (1 / 1000000) 0 (10001 / 2000))
    (bs_d1 2 1 (1 / 1000000) 0 (1 / 2))
    (by linarith [d1_mid_ge]) (by linarith [d1_half_ge])
  have h2 := norm_cdf_diff_abs (bs_d2 2 1 (1 / 1000000) 0 (10001 / 2000))
    (bs_d2 2 1 (1 / 1000000) 0 (1 / 2)) d2_mid_ge d2_half_ge
  have he := exp_neg_92_sq_lt
  set X := norm_cdf (bs_d1 2 1 (1 / 1000000) 0 (10001 / 2000)) -
    norm_cdf (bs_d1 2 1 (1 / 1000000) 0 (1 / 2)) with hX
  set Y := norm_cdf (bs_d2 2 1 (1 / 1000000) 0 (10001 / 2000)) -
    norm_cdf (bs_d2 2 1 (1 / 1000000) 0 (1 / 2)) with hY
  have hcomb : |2 * norm_cdf (bs_d1 2 1 (1 / 1000000) 0 (10001 / 2000)) -
      norm_cdf (bs_d2 2 1 (1 / 1000000) 0 (10001 / 2000)) -
      (2 * norm_cdf (bs_d1 2 1 (1 / 1000000) 0 (1 / 2)) -
        norm_cdf (bs_d2 2 1 (1 / 1000000) 0 (1 / 2)))| = |2 * X - Y| := by
    rw [hX, hY]
    ring_nf
  rw [hcomb]
  have htri : |2 * X - Y| ≤ 2 * |X| + |Y| := by
    rw [sub_eq_add_neg]
    refine (abs_add _ _).trans ?_
    rw [abs_neg, abs_mul]
    norm_num
  have hXa : |X| ≤ Real.exp (-(92:ℝ) ^ 2) := h1
  have hYa : |Y| ≤ Real.exp (-(92:ℝ) ^ 2) := h2
  have h3 : (3:ℝ) * 1e-9 < 1e-8 := by norm_num
  set E := Real.exp (-(92:ℝ) ^ 2) with hE
  calc |2 * X - Y| ≤ 2 * |X| + |Y| := htri
    _ ≤ 2 * E + E := by
        have h0X := abs_nonneg X
        linarith
    _ < 1e-8 := by linarith

lemma P0_pos : 0 < bsPriceVal true 2 1 (1 / 1000000) 0 (1 / 2) := by
  rw [bsPriceVal_deep]
  have hd21 : bs_d2 2 1 (1 / 1000000) 0 (1 / 2) ≤ bs_d1 2 1 (1 / 1000000) 0 (1 / 2) := by
    unfold bs_d2
    exact sub_le_self _ (by positivity)
  have hmono := norm_cdf_monotone hd21
  have hhalf := norm_cdf_half (bs_d2 2 1 (1 / 1000000) 0 (1 / 2))
    (by linarith [d2_half_ge])
  linarith

/-- On the deep input, bisection accepts the very first midpoint `(0.001+10)/2`
because the target tolerance is already met there. -/
lemma bisection_deep :
    bisection_implied_volatility true 2 1 (1 / 1000000) 0
      (bsPriceVal true 2 1 (1 / 1000000) 0 (1 / 2)) = .ok ((0.001 + 10.0) / 2) := by
  unfold bisection_implied_volatility
  rw [if_neg (not_le.mpr P0_pos), show (1000:ℕ) = 999 + 1 from rfl, bisection_loop_succ]
  have hmid : black_scholes_price true 2 1 (1 / 1000000) 0 ((0.001 + 10.0) / 2) =
      .ok (bsPriceVal true 2 1 (1 / 1000000) 0 ((0.001 + 10.0) / 2)) :=
    black_scholes_price_ok true 2 1 (1 / 1000000) 0 ((0.001 + 10.0) / 2)
      (by norm_num) (by norm_num) (by norm_num) (by norm_num)
  rw [hmid]
  have htol : |bsPriceVal true 2 1 (1 / 1000000) 0 ((0.001 + 10.0) / 2) -
      bsPriceVal true 2 1 (1 / 1000000) 0 (1 / 2)| < 1e-8 := by
    rw [show ((0.001 + 10.0) / 2 : ℝ) = 10001 / 2000 from by norm_num]
    exact price_diff_small
  simp only [htol, if_true]

/-- C1 is false as stated: on the valid input `is_call = true, S = 2, K = 1,
T = 1e-6, r = 0` with `sigma = 1/2 ∈ (0.01, 1)`, pricing and then solving with
`BISECTION` returns `(0.001+10)/2 = 5.0005`, which is not within `1e-3` of
`1/2`. -/
theorem round_trip_sigma_counterexample :
    (0:ℝ) < 2 ∧ (0:ℝ) < 1 ∧ (0:ℝ) < 1 / 1000000 ∧
    (0.01:ℝ) < 1 / 2 ∧ (1 / 2:ℝ) < 1.0 ∧
    black_scholes_price true 2 1 (1 / 1000000) 0 (1 / 2) =
      .ok (bsPriceVal true 2 1 (1 / 1000000) 0 (1 / 2)) ∧
    calculate_implied_volatility true 2 1 (1 / 1000000) 0
      (bsPriceVal true 2 1 (1 / 1000000) 0 (1 / 2)) .BISECTION =
      .ok ((0.001 + 10.0) / 2) ∧
    ¬ |(0.001 + 10.0) / 2 - (1 / 2 : ℝ)| < 1e-3 := by
  refine ⟨by norm_num, by norm_num, by norm_num, by norm_num, by norm_num,
    black_scholes_price_ok true 2 1 (1 / 1000000) 0 (1 / 2)
      (by norm_num) (by norm_num) (by norm_num) (by norm_num), ?_, ?_⟩
  · simp only [calculate_implied_volatility]
    exact bisection_deep
  · rw [abs_of_pos (by norm_num)]
    norm_num

/-- Witness for `round_trip_price_tolerance`, at the deep input where the
solver's answer is known in closed form. -/
theorem round_trip_price_tolerance_witness :
    ∃ pr, black_scholes_price true 2 1 (1 / 1000000) 0 ((0.001 + 10.0) / 2) =
        .ok pr ∧
      |pr - bsPriceVal true 2 1 (1 / 1000000) 0 (1 / 2)| <
        method_tolerance .BISECTION :=
  round_trip_price_tolerance true 2 1 (1 / 1000000) 0 (1 / 2)
    (bsPriceVal true 2 1 (1 / 1000000) 0 (1 / 2)) ((0.001 + 10.0) / 2) .BISECTION
    (by norm_num) (by norm_num) (by norm_num) (by norm_num) (by norm_num)
    (black_scholes_price_ok true 2 1 (1 / 1000000) 0 (1 / 2)
      (by norm_num) (by norm_num) (by norm_num) (by norm_num))
    (by simp only [calculate_implied_volatility]; exact bisection_deep)

end

end IVCalculator
